import Mathlib

/-!
# Verification of the sunshine-aio-library validation scripts

A shallow embedding, in Lean 4, of the release-asset resolution and manifest
auto-completion engine of `scripts/validate.py`, together with the health
scorer of `scripts/verify-tools.py`.  Filenames, URLs and manifests are
modelled as strings and association lists; Python regular-expression matching
is embedded by specialised parsers with the exact semantics of the patterns
appearing in the source (anchored `re.match`, `.` not matching a newline,
`$` also accepting a single trailing newline, greedy and lazy repetition).
Machine-level numerics (`float` scores) are modelled over `ℚ`, with Python's
`int()` truncation made explicit.
-/

namespace SunshineAIO

/-- ASCII lower-casing of a character list, as Python's `str.lower` acts on
the ASCII filenames and issue strings handled by the scripts. -/
def lowerStr (l : List Char) : List Char := l.map Char.toLower

/-- `pat` occurs as a contiguous substring of `l`: Python's `in` operator on
strings, and equally `re.search(r'.*pat.*', l)` for a literal `pat` (substring
search succeeds at any start position, so surrounding newlines are harmless). -/
def containsSub (pat : List Char) : List Char → Bool
  | [] => pat.isEmpty
  | c :: tl => pat.isPrefixOf (c :: tl) || containsSub pat tl

theorem containsSub_nil_pat (l : List Char) : containsSub [] l = true := by
  cases l <;> simp [containsSub, List.isPrefixOf]

theorem isPrefixOf_append_of_isPrefixOf {p l t : List Char}
    (h : p.isPrefixOf l = true) : p.isPrefixOf (l ++ t) = true := by
  rw [List.isPrefixOf_iff_prefix] at h ⊢
  exact h.trans (List.prefix_append l t)

theorem containsSub_append_left {pat l₁ : List Char} (l₂ : List Char)
    (h : containsSub pat l₁ = true) : containsSub pat (l₁ ++ l₂) = true := by
  induction l₁ with
  | nil =>
      simp [containsSub] at h
      subst h
      exact containsSub_nil_pat l₂
  | cons c tl ih =>
      simp only [containsSub, Bool.or_eq_true] at h
      rcases h with h | h
      · simp only [List.cons_append, containsSub, Bool.or_eq_true]
        exact Or.inl (isPrefixOf_append_of_isPrefixOf h)
      · simp only [List.cons_append, containsSub, Bool.or_eq_true]
        exact Or.inr (ih h)

/-- Match a literal character sequence at the head of the input and return the
remainder (the fixed text of a Python regex, e.g. `https://github\.com/`). -/
def parseLit : List Char → List Char → Option (List Char)
  | [], rest => some rest
  | _ :: _, [] => none
  | p :: ps, c :: cs => if c = p then parseLit ps cs else none

theorem parseLit_self_append (p rest : List Char) :
    parseLit p (p ++ rest) = some rest := by
  induction p with
  | nil => rfl
  | cons c cs ih => simp [parseLit, ih]

/-- Parse one URL path segment, `([^/]+)/`: a nonempty greedy run of
non-slash characters followed by a literal `/`; returns (segment, rest).
Backtracking cannot split a segment differently, because `[^/]+` must stop at
the first `/` and the following literal `/` forces it to reach it. -/
def parseSeg (l : List Char) : Option (List Char × List Char) :=
  match l.dropWhile (fun c => c != '/') with
  | '/' :: tl =>
      if (l.takeWhile (fun c => c != '/')).isEmpty then none
      else some (l.takeWhile (fun c => c != '/'), tl)
  | _ => none

theorem parseSeg_sound {l seg rest : List Char}
    (h : parseSeg l = some (seg, rest)) :
    seg ≠ [] ∧ (∀ c ∈ seg, c ≠ '/') ∧ l = seg ++ '/' :: rest := by
  unfold parseSeg at h
  split at h
  case _ tl hdrop =>
    split at h
    · exact absurd h (by simp)
    case isFalse hne =>
      injection h with h'
      injection h' with h₁ h₂
      subst h₁; subst h₂
      refine ⟨by simpa [List.isEmpty_iff] using hne, ?_, ?_⟩
      · intro c hc
        have := List.mem_takeWhile_imp hc
        simpa using this
      · conv_lhs => rw [← List.takeWhile_append_dropWhile (fun c => c != '/') l]
        rw [hdrop]
  case _ => exact absurd h (by simp)

theorem parseSeg_append {s : List Char} (t : List Char)
    (h₁ : s ≠ []) (h₂ : ∀ c ∈ s, c ≠ '/') :
    parseSeg (s ++ '/' :: t) = some (s, t) := by
  have hall : ∀ c ∈ s, (fun c => c != '/') c = true := by
    intro c hc; simpa using h₂ c hc
  have htake : (s ++ '/' :: t).takeWhile (fun c => c != '/') = s := by
    rw [List.takeWhile_append_of_pos hall]
    simp [List.takeWhile_cons]
  have hdrop : (s ++ '/' :: t).dropWhile (fun c => c != '/') = '/' :: t := by
    rw [List.dropWhile_append_of_pos hall]
    simp [List.dropWhile_cons]
  unfold parseSeg
  rw [hdrop]
  simp only [htake]
  rw [if_neg (by simpa [List.isEmpty_iff] using h₁)]

/-- `(.+)$` at the end of a Python regex: a nonempty run of characters none of
which is a newline (`.` does not match `\n`), reaching the end of the input —
where `$` also matches just before one final trailing newline. -/
def matchDotPlusEnd (l : List Char) : Bool :=
  let core := if l.getLast? = some '\n' then l.dropLast else l
  !core.isEmpty && core.all (fun c => c != '\n')

/-- `re.match(r'https://github\.com/([^/]+)/([^/]+)/releases/download/([^/]+)/(.+)$', url)`
from `_convert_to_latest_url`, returning the captured owner and repository. -/
def parseDownload (l : List Char) : Option (List Char × List Char) :=
  (parseLit "https://github.com/".data l).bind fun r0 =>
  (parseSeg r0).bind fun p1 =>
  (parseSeg p1.2).bind fun p2 =>
  (parseLit "releases/download/".data p2.2).bind fun r3 =>
  (parseSeg r3).bind fun p4 =>
  if matchDotPlusEnd p4.2 then some (p1.1, p2.1) else none

/-- The canonical `releases/latest` URL produced for a given owner and repo. -/
def latestUrl (owner repo : List Char) : String :=
  ⟨"https://github.com/".data ++ owner ++ '/' :: (repo ++ "/releases/latest".data)⟩

/-- `_convert_to_latest_url`: if the URL is non-empty, mentions `github.com`
and matches the versioned release-download shape, rewrite it to the generic
latest-release URL for the same owner/repo; otherwise pass it through. -/
def convert_to_latest_url (url : String) : String :=
  if url.data.isEmpty || !containsSub "github.com".data url.data then url
  else
    match parseDownload url.data with
    | some (owner, repo) => latestUrl owner repo
    | none => url

theorem parseDownload_sound {l o r : List Char}
    (h : parseDownload l = some (o, r)) :
    (o ≠ [] ∧ ∀ c ∈ o, c ≠ '/') ∧ (r ≠ [] ∧ ∀ c ∈ r, c ≠ '/') := by
  unfold parseDownload at h
  cases h0 : parseLit "https://github.com/".data l with
  | none => rw [h0] at h; simp at h
  | some r0 =>
    rw [h0, Option.some_bind] at h
    cases h1 : parseSeg r0 with
    | none => rw [h1] at h; simp at h
    | some p1 =>
      obtain ⟨owner, r1⟩ := p1
      rw [h1, Option.some_bind] at h
      cases h2 : parseSeg r1 with
      | none => rw [h2] at h; simp at h
      | some p2 =>
        obtain ⟨repo, r2⟩ := p2
        rw [h2, Option.some_bind] at h
        cases h3 : parseLit "releases/download/".data r2 with
        | none => rw [h3] at h; simp at h
        | some r3 =>
          rw [h3, Option.some_bind] at h
          cases h4 : parseSeg r3 with
          | none => rw [h4] at h; simp at h
          | some p4 =>
            rw [h4, Option.some_bind] at h
            by_cases hm : matchDotPlusEnd p4.2 = true
            · rw [if_pos hm] at h
              simp only [Option.some.injEq, Prod.mk.injEq] at h
              obtain ⟨ho, hr⟩ := h
              subst ho; subst hr
              obtain ⟨ho1, ho2, -⟩ := parseSeg_sound h1
              obtain ⟨hr1, hr2, -⟩ := parseSeg_sound h2
              exact ⟨⟨ho1, ho2⟩, ⟨hr1, hr2⟩⟩
            · rw [if_neg hm] at h; simp at h

theorem parseDownload_latestUrl {o r : List Char}
    (ho1 : o ≠ []) (ho2 : ∀ c ∈ o, c ≠ '/')
    (hr1 : r ≠ []) (hr2 : ∀ c ∈ r, c ≠ '/') :
    parseDownload (latestUrl o r).data = none := by
  unfold parseDownload latestUrl
  rw [show (⟨"https://github.com/".data ++ o ++ '/' :: (r ++ "/releases/latest".data)⟩ : String).data
      = "https://github.com/".data ++ (o ++ '/' :: (r ++ "/releases/latest".data)) by simp]
  rw [parseLit_self_append, Option.some_bind]
  rw [parseSeg_append _ ho1 ho2, Option.some_bind]
  rw [show r ++ "/releases/latest".data = r ++ '/' :: "releases/latest".data from rfl]
  rw [parseSeg_append _ hr1 hr2, Option.some_bind]
  rfl

theorem convert_to_latest_url_latestUrl {o r : List Char}
    (ho1 : o ≠ []) (ho2 : ∀ c ∈ o, c ≠ '/')
    (hr1 : r ≠ []) (hr2 : ∀ c ∈ r, c ≠ '/') :
    convert_to_latest_url (latestUrl o r) = latestUrl o r := by
  unfold convert_to_latest_url
  split
  · rfl
  · rw [parseDownload_latestUrl ho1 ho2 hr1 hr2]

theorem convert_to_latest_url_idem (u : String) :
    convert_to_latest_url (convert_to_latest_url u) = convert_to_latest_url u := by
  by_cases hg : (u.data.isEmpty || !containsSub "github.com".data u.data) = true
  · have h : convert_to_latest_url u = u := by
      unfold convert_to_latest_url; rw [if_pos hg]
    rw [h]; exact h
  · rcases hp : parseDownload u.data with - | ⟨o, r⟩
    · have h : convert_to_latest_url u = u := by
        unfold convert_to_latest_url; rw [if_neg hg, hp]
      rw [h]; exact h
    · have hu : convert_to_latest_url u = latestUrl o r := by
        unfold convert_to_latest_url; rw [if_neg hg, hp]
      obtain ⟨⟨ho1, ho2⟩, hr1, hr2⟩ := parseDownload_sound hp
      rw [hu, convert_to_latest_url_latestUrl ho1 ho2 hr1 hr2]

/-! ## Executable Name Synthesizer (`_generate_generic_executable_name`) -/

/-- ASCII lowercase letter, the character class `[a-z]` of the source's
patterns (Python's `re` classes here only ever see ASCII filenames). -/
def isAsciiLower (c : Char) : Bool := 97 ≤ c.toNat && c.toNat ≤ 122

/-- `re.search(r'\.([^.]+)$', name)`: the suffix after the last dot, provided
the name contains a dot followed by at least one character. -/
def extractExt (l : List Char) : Option (List Char) :=
  match l.reverse.dropWhile (fun c => c != '.') with
  | '.' :: _ =>
      let revExt := l.reverse.takeWhile (fun c => c != '.')
      if revExt.isEmpty then none else some revExt.reverse
  | _ => none

/-- `re.sub(r'\.[^.]+$', '', base)`: remove the final dot-extension when the
pattern matches, otherwise leave the input unchanged. -/
def removeExt (l : List Char) : List Char :=
  match extractExt l with
  | some e => l.take (l.length - (e.length + 1))
  | none => l

/-- `re.match(r'^([a-z]+)\d.*', s)`: a leading run of lowercase letters
immediately followed by a digit (`\d` is `Char.isDigit` on these ASCII
filenames).  The greedy `[a-z]+` takes the maximal run; backtracking to a
shorter run cannot succeed because the next character would then be a
letter, not a digit, and the trailing `.*` always matches. -/
def pat1 (s : List Char) : Option (List Char) :=
  let core := s.takeWhile isAsciiLower
  match s.dropWhile isAsciiLower with
  | c :: _ => if !core.isEmpty && c.isDigit then some core else none
  | [] => none

/-- The alternation `(?:[-_]v?\d+|[-_]\d{4}|[-_]windows|[-_]linux|[-_]mac)`
after its separator has been consumed: a digit, `v` followed by a digit (the
`\d{4}` case is subsumed by `v?\d+`), or one of the literal tokens. -/
def isVersionTail (rest : List Char) : Bool :=
  match rest with
  | [] => false
  | c :: tl =>
      c.isDigit
        || (c == 'v' && (match tl with | d :: _ => d.isDigit | [] => false))
        || "windows".data.isPrefixOf (c :: tl)
        || "linux".data.isPrefixOf (c :: tl)
        || "mac".data.isPrefixOf (c :: tl)

/-- The lazy capture of `re.match(r'^([a-z-]+?)(?:[-_]v?\d+|...).*', s)`:
scan left to right, at each position preferring to stop (shortest capture
first) when the next character is a `-`/`_` separator followed by a
version-looking tail, else extending the capture while it stays inside
`[a-z-]`.  `acc` holds the capture so far, reversed. -/
def pat2Go (acc : List Char) : List Char → Option (List Char)
  | [] => none
  | c :: tl =>
      if (c == '-' || c == '_') && !acc.isEmpty && isVersionTail tl then
        some acc.reverse
      else if isAsciiLower c || c == '-' then pat2Go (c :: acc) tl
      else none

def pat2 (s : List Char) : Option (List Char) := pat2Go [] s

/-- `re.match(r'^([a-z]+)', s)`: the maximal leading lowercase-letter run. -/
def pat3 (s : List Char) : Option (List Char) :=
  let core := s.takeWhile isAsciiLower
  if core.isEmpty then none else some core

/-- `.rstrip('-_')` on the captured core name. -/
def rstripDashUnderscore (l : List Char) : List Char :=
  (l.reverse.dropWhile (fun c => c == '-' || c == '_')).reverse

/-- `_generate_generic_executable_name(original_name, platform)`: collapse the
version-specific part of a filename to a stable pattern, by the source's
cascade of three regexes over the lower-cased, extension-stripped name; the
`platform` argument is accepted but never used, as in the source.  An empty
`original_name` falls out of the first match, exactly as the source's
`if not original_name` guard does. -/
def generate_generic_executable_name (original_name : String) (_platform : String) : String :=
  match extractExt original_name.data with
  | none => original_name
  | some ext =>
      let nw := removeExt (lowerStr original_name.data)
      match pat1 nw with
      | some core => ⟨core ++ '.' :: ext⟩
      | none =>
          match pat2 nw with
          | some core => ⟨rstripDashUnderscore core ++ '.' :: ext⟩
          | none =>
              match pat3 nw with
              | some core => ⟨core ++ '.' :: ext⟩
              | none => original_name

/-! ## Platform Pattern Matcher and Asset Resolver (`_detect_platform_assets`) -/

/-- A release asset as consumed from the GitHub API release response, with
the two fields the resolver reads. -/
structure Asset where
  name : String
  browser_download_url : String
deriving DecidableEq, Repr

/-- `_detect_installation_type(asset_name, repo_language)`: substring checks
on the lower-cased name, falling back on the repository language. -/
def detect_installation_type (asset_name : String) (repo_language : String) : String :=
  let al := lowerStr asset_name.data
  if containsSub ".msi".data al then "msi"
  else if containsSub ".exe".data al then "executable"
  else if containsSub ".zip".data al || containsSub ".tar.gz".data al
      || containsSub ".7z".data al then "zip"
  else if containsSub ".deb".data al || containsSub ".rpm".data al then "package-manager"
  else if containsSub ".sh".data al || containsSub ".ps1".data al
      || containsSub ".bat".data al then "script"
  else if repo_language == "Python" || repo_language == "JavaScript"
      || repo_language == "TypeScript" then "script"
  else "portable"

/-- One platform-detection regex of `_detect_platform_assets`, in the three
shapes occurring in the priority tables. -/
inductive Pat where
  /-- `.*kw(o₁|o₂)?.*\.ext$`; an empty `opts` list is the plain `.*kw.*\.ext$`. -/
  | kwExt (kw : String) (opts : List String) (ext : String)
  /-- `^[^-]*\.ext$` -/
  | noDashExt (ext : String)
  /-- `.*\.ext$` -/
  | extOnly (ext : String)
deriving DecidableEq, Repr

/-- Python's `$` may also match just before one final trailing newline. -/
def stripFinalNewline (l : List Char) : List Char :=
  if l.getLast? = some '\n' then l.dropLast else l

/-- The part of the (newline-normalised) name before a final literal `.ext`,
when that suffix is present. -/
def stripDotExt (ext : String) (l : List Char) : Option (List Char) :=
  let norm := stripFinalNewline l
  let suff := '.' :: ext.data
  if suff.isSuffixOf norm then some (norm.take (norm.length - suff.length)) else none

/-- Anchored `re.match` of one table pattern against the lower-cased asset
name.  `.*` spans cannot cross a newline, so for `kwExt`/`extOnly` the part
before the extension must be newline-free; for `kwExt` the keyword (which
never contains a dot and never fits inside the extension literal) must then
occur inside that part, where an optional group `(o₁|o₂)?` simply adds the
keyword+option literals as alternative substrings.  `[^-]*` in `noDashExt`
does match newlines but no hyphen. -/
def Pat.matches (p : Pat) (nameLower : List Char) : Bool :=
  match p with
  | .kwExt kw opts ext =>
      match stripDotExt ext nameLower with
      | some core =>
          core.all (fun c => c != '\n')
            && ("" :: opts).any (fun o => containsSub (kw ++ o).data core)
      | none => false
  | .noDashExt ext =>
      match stripDotExt ext nameLower with
      | some core => core.all (fun c => c != '-')
      | none => false
  | .extOnly ext =>
      match stripDotExt ext nameLower with
      | some core => core.all (fun c => c != '\n')
      | none => false

/-- The `windows` priority table. -/
def windowsPatterns : List (Pat × Int) :=
  [(.kwExt "windows" [] "exe", 100),
   (.kwExt "win" ["32", "64"] "exe", 95),
   (.kwExt "windows" [] "msi", 90),
   (.kwExt "win" ["32", "64"] "msi", 85),
   (.noDashExt "exe", 80),
   (.extOnly "exe", 70),
   (.extOnly "msi", 60),
   (.kwExt "windows" [] "zip", 40),
   (.kwExt "win" ["32", "64"] "zip", 35),
   (.extOnly "zip", 20)]

/-- The `linux` priority table (`\.AppImage$` carries `re.IGNORECASE` and is
matched against the lower-cased name, hence the lowercase extension). -/
def linuxPatterns : List (Pat × Int) :=
  [(.kwExt "linux" [] "deb", 100),
   (.kwExt "ubuntu" [] "deb", 95),
   (.extOnly "deb", 90),
   (.kwExt "linux" [] "appimage", 85),
   (.extOnly "appimage", 80),
   (.kwExt "linux" [] "rpm", 75),
   (.extOnly "rpm", 70),
   (.kwExt "linux" [] "tar.gz", 50),
   (.extOnly "tar.gz", 30)]

/-- The `macos` priority table. -/
def macosPatterns : List (Pat × Int) :=
  [(.kwExt "mac" ["os"] "dmg", 100),
   (.kwExt "darwin" [] "dmg", 95),
   (.extOnly "dmg", 90),
   (.kwExt "mac" ["os"] "pkg", 80),
   (.kwExt "darwin" [] "pkg", 75),
   (.extOnly "pkg", 70),
   (.kwExt "mac" ["os"] "zip", 50),
   (.kwExt "darwin" [] "zip", 45)]

/-- The `platform_patterns` table, in its insertion (iteration) order. -/
def platformPatterns : List (String × List (Pat × Int)) :=
  [("windows", windowsPatterns), ("linux", linuxPatterns), ("macos", macosPatterns)]

/-- The debug/development exclusion: `re.search(r'.*marker.*', name_lower)`
succeeds exactly when the marker occurs as a substring (`re.search` may start
after any newline, so newlines never block it). -/
def isExcluded (nameLower : List Char) : Bool :=
  ["debug", "pdb", "symbols", "dev", "source", "src"].any
    (fun m => containsSub m.data nameLower)

/-- The per-platform best-match record built by `_detect_platform_assets`
(the transient `"priority"` entry is tracked alongside and popped at the
end, as in the source). -/
structure PlatformMatch where
  asset : Asset
  name : String
  url : String
  type : String
  executable : String
deriving DecidableEq, Repr

/-- First-match lookup in an insertion-ordered association list (Python dict
read). -/
def lookupKey {α : Type} : List (String × α) → String → Option α
  | [], _ => none
  | (k', v) :: tl, k => if k' = k then some v else lookupKey tl k

/-- Python dict membership test. -/
def hasKey {α : Type} (m : List (String × α)) (k : String) : Bool :=
  (lookupKey m k).isSome

/-- Python dict assignment: replace in place if the key exists, else append
(new keys keep insertion order). -/
def setKey {α : Type} : List (String × α) → String → α → List (String × α)
  | [], k, v => [(k, v)]
  | (k', v') :: tl, k, v =>
      if k' = k then (k, v) :: tl else (k', v') :: setKey tl k v

/-- The `best_match` record rebuilt by the inner pattern loop; all its fields
except the priority are independent of which pattern matched. -/
def mkBestMatch (asset : Asset) (platform : String) : PlatformMatch :=
  { asset := asset
    name := asset.name
    url := convert_to_latest_url asset.browser_download_url
    type := detect_installation_type asset.name ""
    executable := generate_generic_executable_name asset.name platform }

/-- The inner loop over one platform's pattern table: the best (strictly
greater) priority among matching patterns, starting from `-1` (no match). -/
def bestPriority (pats : List (Pat × Int)) (nameLower : List Char) : Int :=
  pats.foldl (fun best pw => if pw.1.matches nameLower ∧ best < pw.2 then pw.2 else best) (-1)

/-- One (asset, platform) step: if some pattern matched, store the record
when the platform is new or the priority strictly improves. -/
def processPlatform (asset : Asset) (pa : List (String × (PlatformMatch × Int)))
    (pl : String × List (Pat × Int)) : List (String × (PlatformMatch × Int)) :=
  let pr := bestPriority pl.2 (lowerStr asset.name.data)
  if -1 < pr then
    match lookupKey pa pl.1 with
    | none => setKey pa pl.1 (mkBestMatch asset pl.1, pr)
    | some old => if old.2 < pr then setKey pa pl.1 (mkBestMatch asset pl.1, pr) else pa
  else pa

/-- One asset step: excluded names are skipped before any platform matching. -/
def processAsset (pa : List (String × (PlatformMatch × Int))) (asset : Asset) :
    List (String × (PlatformMatch × Int)) :=
  if isExcluded (lowerStr asset.name.data) then pa
  else platformPatterns.foldl (processPlatform asset) pa

/-- `_detect_platform_assets(assets)`: fold the update over the asset list,
then pop the transient priorities. -/
def detect_platform_assets (assets : List Asset) : List (String × PlatformMatch) :=
  (assets.foldl processAsset []).map (fun e => (e.1, e.2.1))

/-! ## Manifest documents and the Installation Config Synthesizer -/

/-- A JSON value as stored in a manifest document. -/
inductive JVal where
  | str (s : String)
  | bool (b : Bool)
  | num (n : Int)
  | list (l : List JVal)
  | obj (o : List (String × JVal))

/-- A manifest document / JSON object: a Python dict modelled as an
insertion-ordered association list. -/
abbrev Obj := List (String × JVal)

/-- The slice of `_get_github_releases_info`'s result read by the generators.
It is fetched from the network in the source; here it is an explicit input.
When `has_releases` is false the other fields are never read; a Python-falsy
absent string field is the empty string. -/
structure ReleaseInfo where
  has_releases : Bool
  platform_assets : List (String × PlatformMatch)
  asset_name : String
  download_url : String

/-- The slice of `validate_github_repository`'s metrics dict read by
auto-completion; absent values are the Python falsy defaults. -/
structure RepoMetrics where
  description : String
  language : String
  license : String
  homepage : String
  topics : List String

/-- `_get_platform_default_args(platform, install_type)`: the fixed
`args_map` lookup, with `[]` as the double dict default (which is also the
value of the `zip`/`portable` entries). -/
def get_platform_default_args (platform install_type : String) : List String :=
  if platform = "windows" then
    if install_type = "msi" then ["/quiet", "/norestart"]
    else if install_type = "executable" then ["/S"]
    else []
  else if platform = "linux" then
    if install_type = "package-manager" then ["--force-yes"]
    else if install_type = "executable" then ["--silent"]
    else []
  else []

/-- `_generate_installation_config(release_info, repo_metrics)`: the
all-defaults stub when there are no releases; the `platforms` shape when
platform assets exist; else the single-platform fallback built from the
primary asset. -/
def generate_installation_config (ri : ReleaseInfo) (m : RepoMetrics) : JVal :=
  if !ri.has_releases then
    .obj [("type", .str "executable"), ("args", .list []),
          ("postInstall", .str ""), ("checksum", .str "")]
  else if !ri.platform_assets.isEmpty then
    .obj [("platforms", .obj (ri.platform_assets.map (fun e =>
      (e.1, .obj [("type", .str e.2.type),
                  ("url", .str e.2.url),
                  ("executable", .str e.2.executable),
                  ("args", .list ((get_platform_default_args e.1 e.2.type).map .str)),
                  ("postInstall", .str ""),
                  ("checksum", .str ""),
                  ("silent", .bool (e.1 != "macos"))]))))]
  else
    let base : Obj := [("type", .str "executable"), ("args", .list []),
                       ("postInstall", .str ""), ("checksum", .str "")]
    .obj (if ri.asset_name ≠ "" then
        let c := setKey base "type"
          (.str (detect_installation_type ri.asset_name m.language))
        let c := setKey c "executable"
          (.str (generate_generic_executable_name ri.asset_name ""))
        if ri.download_url ≠ "" then
          setKey c "url" (.str (convert_to_latest_url ri.download_url))
        else c
      else base)

/-! ## Manifest Auto-Completer (`autocomplete_legacy_manifest`) -/

/-- `_is_legacy_format`: none of the modern fields is present. -/
def is_legacy_format (d : Obj) : Bool :=
  !(["installation", "uninstallation", "compatibility", "slug"].any (hasKey d))

/-- Read a string-valued manifest field with a default, as `d.get(k, dflt)`
does on the schema's string fields. -/
def getStrD (d : Obj) (k : String) (dflt : String) : String :=
  match lookupKey d k with
  | some (.str s) => s
  | _ => dflt

/-- `re.match(r'https://github\.com/([^/]+)/([^/]+)/?$', repo_url)`: owner
and repo segments, an optional trailing slash, and `$` possibly sitting
before one final newline. -/
def parseRepoUrl (url : String) : Option (List Char × List Char) :=
  (parseLit "https://github.com/".data url.data).bind fun rest =>
  let owner := rest.takeWhile (fun c => c != '/')
  match rest.dropWhile (fun c => c != '/') with
  | '/' :: rest2 =>
      if owner.isEmpty then none
      else
        let repo := rest2.takeWhile (fun c => c != '/')
        if repo.isEmpty then none
        else match rest2.dropWhile (fun c => c != '/') with
          | [] => some (owner, repo)
          | ['/'] => some (owner, repo)
          | ['/', '\n'] => some (owner, repo)
          | _ => none
  | _ => none

/-- Python's `\s` class on the ASCII range, as used by `_generate_slug`. -/
def pyIsSpace (c : Char) : Bool :=
  c == ' ' || c == '\t' || c == '\n' || c == '\r' || c == '\x0b' || c == '\x0c'

/-- `re.sub(r'\s+', '-', l)`: collapse each maximal whitespace run to one
hyphen; `prevWs` records whether the previous character was whitespace. -/
def collapseWs (prevWs : Bool) : List Char → List Char
  | [] => []
  | c :: tl =>
      if pyIsSpace c then
        (if prevWs then collapseWs true tl else '-' :: collapseWs true tl)
      else c :: collapseWs false tl

/-- `str.strip('-')`. -/
def stripDashes (l : List Char) : List Char :=
  ((l.dropWhile (fun c => c == '-')).reverse.dropWhile (fun c => c == '-')).reverse

/-- `_generate_slug(name)`: drop characters outside
`[a-zA-Z0-9\s\-_]`, collapse whitespace runs to hyphens, lower-case, strip
leading/trailing hyphens. -/
def generate_slug (name : String) : String :=
  let kept := name.data.filter
    (fun c => c.isAlpha || c.isDigit || pyIsSpace c || c == '-' || c == '_')
  ⟨stripDashes (lowerStr (collapseWs false kept))⟩

/-- `_map_github_language_to_schema`. -/
def map_github_language_to_schema (github_language : String) : String :=
  if github_language = "C" ∨ github_language = "C++" then "C++"
  else if github_language = "C#" then "C#"
  else if github_language = "JavaScript" then "JavaScript"
  else if github_language = "TypeScript" then "TypeScript"
  else if github_language = "Python" then "Python"
  else if github_language = "Go" then "Go"
  else if github_language = "Rust" then "Rust"
  else if github_language = "Java" then "Java"
  else if github_language = "PHP" then "PHP"
  else if github_language = "Ruby" then "Ruby"
  else if github_language = "Shell" ∨ github_language = "PowerShell"
      ∨ github_language = "Batchfile" then "Shell"
  else "Other"

/-- `_detect_platforms_from_releases(assets, repo_language)`.  With assets,
the set of detected platform names is returned as `sorted(list(...))`; on
the three possible elements the code-point order is
`"Linux" < "Windows" < "macOS"`, which the concatenation below produces. -/
def detect_platforms_from_releases (assets : List Asset) (repo_language : String) :
    List String :=
  if assets.isEmpty then
    if repo_language = "Python" ∨ repo_language = "JavaScript"
        ∨ repo_language = "TypeScript" ∨ repo_language = "Java" then
      ["Cross-platform"]
    else ["Windows", "Linux", "macOS"]
  else
    let hasTerm := fun (terms : List String) (a : Asset) =>
      terms.any (fun t => containsSub t.data (lowerStr a.name.data))
    let w := assets.any (hasTerm ["win", "windows", ".exe", ".msi"])
    let l := assets.any (hasTerm ["linux", ".deb", ".rpm", ".tar.gz"])
    let mc := assets.any (hasTerm ["mac", "macos", "darwin"])
    if !w && !l && !mc then ["Cross-platform"]
    else (if l then ["Linux"] else []) ++ (if w then ["Windows"] else [])
      ++ (if mc then ["macOS"] else [])

/-- One field-completion step of `autocomplete_legacy_manifest`: the value
is added (appended, preserving dict insertion order) only when the key is
absent; the computation may read the document completed so far and may
decline to add anything (a falsy guard in the source). -/
def addStep (c : Obj) (step : String × (Obj → Option JVal)) : Obj :=
  if hasKey c step.1 then c
  else
    match step.2 c with
    | some v => c ++ [(step.1, v)]
    | none => c

/-- `if s not in acc: acc.append(s)` of the compatibility loop. -/
def pushNew (acc : List String) (s : String) : List String :=
  if s ∈ acc then acc else acc ++ [s]

/-- The `platform_mapping` dict of the compatibility completion. -/
def platformMapping (p : String) : Option String :=
  if p = "Windows" then some "windows"
  else if p = "Linux" then some "linux"
  else if p = "macOS" then some "macos"
  else if p = "Cross-platform" then some "windows"
  else none

/-- The compatibility platform loop.  The `elif platform == "Cross-platform"`
arm with its `break` is retained for fidelity, though it is unreachable: the
mapping itself already contains "Cross-platform". -/
def compatLoop (acc : List String) : List String → List String
  | [] => acc
  | p :: rest =>
      match platformMapping p with
      | some mp => compatLoop (pushNew acc mp) rest
      | none =>
          if p = "Cross-platform" then ["windows", "linux", "macos"]
          else compatLoop acc rest

/-- `completed_data.get("platforms", ["Cross-platform"])`, read as a list of
strings — the shape the schema gives this field and the only shape the
completion itself ever writes. -/
def getPlatforms (c : Obj) : List String :=
  match lookupKey c "platforms" with
  | some (.list vs) => vs.filterMap (fun v => match v with | .str s => some s | _ => none)
  | some _ => []
  | none => ["Cross-platform"]

/-- The `compatibility` object synthesised from the current document. -/
def compatValue (c : Obj) : JVal :=
  let ps := compatLoop [] (getPlatforms c)
  .obj [("sunshine", .bool true), ("apollo", .bool false),
        ("platforms", .list ((if ps.isEmpty then ["windows"] else ps).map .str))]

/-- `description[:97] + "..." if len(description) > 100 else description`. -/
def shortDescription (description : String) : String :=
  if 100 < description.length then ⟨description.data.take 97⟩ ++ "..." else description

/-- One GitHub topic sanitised to the tag alphabet:
`re.sub(r'[^a-z0-9-]', '-', topic.lower())`. -/
def sanitizeTag (topic : String) : String :=
  ⟨(lowerStr topic.data).map (fun c =>
    if isAsciiLower c || c.isDigit || c == '-' then c else '-')⟩

/-- The first eight topics, sanitised, kept when nonempty and at most 20
characters long. -/
def validTags (topics : List String) : List String :=
  (topics.take 8).filterMap (fun topic =>
    let tag := sanitizeTag topic
    if tag ≠ "" ∧ tag.length ≤ 20 then some tag else none)

/-- The ordered field-completion steps of `autocomplete_legacy_manifest`,
each applied by `addStep` only when its key is absent.  `d` is the original
document (the source reads `tool_data` for `name` and `description`),
`owner` the captured repository owner. -/
def autocompleteSteps (d : Obj) (m : RepoMetrics) (ri : ReleaseInfo) (owner : String) :
    List (String × (Obj → Option JVal)) :=
  [("slug", fun _ => some (.str (generate_slug (getStrD d "name" "")))),
   ("short-description", fun c =>
      if hasKey c "short_description" then none
      else
        let description := getStrD d "description" m.description
        if description ≠ "" then some (.str (shortDescription description)) else none),
   ("platforms", fun _ =>
      -- the source initialises `assets = []` and never repopulates it, even
      -- when the repository has releases, so only the language matters here
      some (.list ((detect_platforms_from_releases [] m.language).map .str))),
   ("language", fun _ =>
      if m.language ≠ "" then some (.str (map_github_language_to_schema m.language))
      else none),
   ("license", fun _ => if m.license ≠ "" then some (.str m.license) else none),
   ("compatibility", fun c => some (compatValue c)),
   ("installation", fun _ => some (generate_installation_config ri m)),
   ("uninstallation", fun _ =>
      some (.obj [("type", .str "manual"), ("path", .str ""), ("args", .list [])])),
   ("configuration", fun _ =>
      if m.homepage ≠ "" ∧ "http".data.isPrefixOf m.homepage.data then
        some (.obj [("type", .str "url"), ("url", .str m.homepage)])
      else some (.obj [("type", .str "")])),
   ("screenshots", fun _ => some (.list [])),
   ("icon", fun _ => some (.str "")),
   ("author", fun _ => some (.str owner)),
   ("website", fun _ => if m.homepage ≠ "" then some (.str m.homepage) else none),
   ("tags", fun _ =>
      if m.topics ≠ [] then
        let vt := validTags m.topics
        if vt ≠ [] then some (.list (vt.map .str)) else none
      else none)]

/-- `autocomplete_legacy_manifest(tool_data, repo_metrics)`: the document is
returned unchanged unless it is legacy and its `repository` URL parses; the
network lookup `_get_github_releases_info(owner, repo)` is the explicit `ri`
input. -/
def autocomplete_legacy_manifest (d : Obj) (m : RepoMetrics) (ri : ReleaseInfo) : Obj :=
  if !is_legacy_format d then d
  else
    match parseRepoUrl (getStrD d "repository" "") with
    | none => d
    | some (owner, _) => (autocompleteSteps d m ri ⟨owner⟩).foldl addStep d

/-- The backup guard on `validate_single_tool`'s save path: the backup file
is written only when none exists (`if not backup_path.exists()`).  Returns
the new existence state and whether a write happened. -/
def backupStep (backupExists : Bool) : Bool × Bool :=
  if backupExists then (true, false) else (true, true)

/-- `n` successive validation-and-save runs against the same manifest file,
counting backup writes. -/
def runBackups : Nat → Bool → Bool × Nat
  | 0, e => (e, 0)
  | n + 1, e =>
      let s := backupStep e
      let rest := runBackups n s.1
      (rest.1, rest.2 + (if s.2 then 1 else 0))

/-! ## Quality and Health Scorers -/

/-- Python's `int()` on a rational: truncation toward zero. -/
def pyInt (q : ℚ) : ℤ := if q < 0 then ⌈q⌉ else ⌊q⌋

/-- The configured weights `scoring_weights` read by
`calculate_quality_score`. -/
structure ScoringWeights where
  stars : ℚ
  forks : ℚ
  recent_activity : ℚ
  documentation : ℚ
  license : ℚ
  community : ℚ

/-- Modelled from the spec: the weight defaults live in
`schemas/validation-rules.json`, which is not among the sources here; the
spec's §4.7 gives sub-score maxima 30+20+20+15+10+5 = 100 together with the
clamp to [0, 100], so the defaults are the identity weights 1. -/
def defaultWeights : ScoringWeights := ⟨1, 1, 1, 1, 1, 1⟩

/-- The manifest fields read by `calculate_quality_score`, with Python
truthiness (an absent field is the falsy default). -/
structure QualityToolData where
  documentation : String
  description : String
  license : String
  maintainer_contact : String
  tags : List String

/-- The repository metrics read by `calculate_quality_score`.
`last_commit_days_ago` folds the source's `datetime.now()` into an input:
`none` when the metrics carry no `last_commit`, `some none` when `strptime`
raises, and `some (some d)` for a commit `d` days in the past. -/
structure QualityMetrics where
  stars : ℕ
  forks : ℕ
  last_commit_days_ago : Option (Option ℤ)

/-- Stars sub-score: `min(30, stars * 0.5)`. -/
def starsScore (stars : ℕ) : ℚ := min 30 ((stars : ℚ) * (1 / 2))

/-- Forks sub-score: `min(20, forks * 2)`. -/
def forksScore (forks : ℕ) : ℚ := min 20 ((forks : ℚ) * 2)

/-- Recent-activity sub-score: tiers over days since the last commit, `5` on
a parse failure, `0` when no `last_commit` is recorded. -/
def activityScoreQ : Option (Option ℤ) → ℚ
  | none => 0
  | some none => 5
  | some (some days) =>
      if days ≤ 30 then 20 else if days ≤ 90 then 15
      else if days ≤ 365 then 10 else 5

/-- Documentation sub-score: `+10` for a documentation link, `+5` for a
description longer than 50 characters. -/
def docScore (tool : QualityToolData) : ℚ :=
  (if tool.documentation ≠ "" then 10 else 0)
    + (if 50 < tool.description.length then 5 else 0)

/-- License sub-score. -/
def licenseScore (tool : QualityToolData) : ℚ :=
  if tool.license ≠ "" then 10 else 0

/-- Community sub-score: maintainer contact and non-empty tags. -/
def communityScore (tool : QualityToolData) : ℚ :=
  (if tool.maintainer_contact ≠ "" then 5 / 2 else 0)
    + (if tool.tags ≠ [] then 5 / 2 else 0)

/-- `calculate_quality_score(tool_data, metrics)`: the weighted sum of the
capped sub-scores, truncated by `int()` and capped at 100. -/
def calculate_quality_score (w : ScoringWeights) (tool : QualityToolData)
    (metrics : QualityMetrics) : ℤ :=
  min 100 (pyInt
    (starsScore metrics.stars * w.stars + forksScore metrics.forks * w.forks
      + activityScoreQ metrics.last_commit_days_ago * w.recent_activity
      + docScore tool * w.documentation + licenseScore tool * w.license
      + communityScore tool * w.community))

/-- The metrics read by `_calculate_health_score` in `verify-tools.py`.
`pushed_days_ago` folds `datetime.now` into an input: `none` when
`pushed_at` is absent, `some none` when date parsing raises, and
`some (some d)` for a push `d` days in the past. -/
structure HealthMetrics where
  pushed_days_ago : Option (Option ℤ)
  has_readme : Bool
  has_ci : Bool
  stars : ℕ
  contributors : ℕ
  recent_commits : ℕ

/-- An issue string is critical when its lower-casing contains `archived`,
`disabled` or `private` as a substring. -/
def isCriticalIssue (issue : String) : Bool :=
  ["archived", "disabled", "private"].any
    (fun cword => containsSub cword.data (lowerStr issue.data))

/-- The critical-issue deduction: 50 per issue mentioning a critical word. -/
def criticalPenalty (issues : List String) : ℚ :=
  50 * ((issues.filter isCriticalIssue).length : ℚ)

/-- The activity recombination: `score * 0.75 + activity_tier` when the push
date parses, `score * 0.9` on a parse failure, `score * 0.8` with no date. -/
def healthActivity : Option (Option ℤ) → ℚ → ℚ
  | some (some days), base =>
      base * (3 / 4)
        + (if days ≤ 30 then 25 else if days ≤ 90 then 20
           else if days ≤ 180 then 15 else if days ≤ 365 then 10 else 5)
  | some none, base => base * (9 / 10)
  | none, base => base * (4 / 5)

/-- The README/CI/stars/contributors/recent-commit bonuses. -/
def healthBonuses (metrics : HealthMetrics) : ℚ :=
  (if metrics.has_readme then 5 else 0) + (if metrics.has_ci then 5 else 0)
    + (if 100 ≤ metrics.stars then 10 else if 50 ≤ metrics.stars then 5
       else if 10 ≤ metrics.stars then 2 else 0)
    + (if 10 ≤ metrics.contributors then 5 else if 5 ≤ metrics.contributors then 3
       else if 2 ≤ metrics.contributors then 1 else 0)
    + (if 10 ≤ metrics.recent_commits then 5 else if 5 ≤ metrics.recent_commits then 3
       else if 1 ≤ metrics.recent_commits then 1 else 0)

/-- `_calculate_health_score(metrics, issues)`: 100 minus 50 per critical
issue, recombined with the activity tier (or shrunk on missing/unparsable
push dates), plus the bonuses, clamped to [0, 100] after `int()`
truncation. -/
def calculate_health_score (metrics : HealthMetrics) (issues : List String) : ℤ :=
  max 0 (min 100 (pyInt
    (healthActivity metrics.pushed_days_ago (100 - criticalPenalty issues)
      + healthBonuses metrics)))

/-! ## Association-list lemmas -/

theorem lookupKey_append_left {α : Type} {m : List (String × α)} {k : String}
    (l : List (String × α)) (h : (lookupKey m k).isSome = true) :
    lookupKey (m ++ l) k = lookupKey m k := by
  induction m with
  | nil => simp [lookupKey] at h
  | cons e tl ih =>
      obtain ⟨k', v⟩ := e
      by_cases he : k' = k
      · simp [lookupKey, he]
      · simp only [lookupKey, he, if_false, List.cons_append] at h ⊢
        exact ih h

theorem lookupKey_append_singleton_ne {α : Type} {k k' : String} (hne : k' ≠ k)
    (c : List (String × α)) (v : α) :
    lookupKey (c ++ [(k', v)]) k = lookupKey c k := by
  induction c with
  | nil => simp [lookupKey, hne]
  | cons e tl ih =>
      obtain ⟨k₀, v₀⟩ := e
      by_cases he : k₀ = k
      · simp [lookupKey, he]
      · simp only [List.cons_append, lookupKey, he, if_false]
        exact ih

theorem lookupKey_append_singleton_self {α : Type} (c : List (String × α))
    (k : String) (v : α) (h : lookupKey c k = none) :
    lookupKey (c ++ [(k, v)]) k = some v := by
  induction c with
  | nil => simp [lookupKey]
  | cons e tl ih =>
      obtain ⟨k₀, v₀⟩ := e
      by_cases he : k₀ = k
      · simp [lookupKey, he] at h
      · simp only [lookupKey, he, if_false, List.cons_append] at h ⊢
        exact ih h

theorem hasKey_append_singleton {c : Obj} (k : String) (v : JVal) :
    hasKey (c ++ [(k, v)]) k = true := by
  unfold hasKey
  cases h : lookupKey c k with
  | none => rw [lookupKey_append_singleton_self c k v h]; rfl
  | some w => rw [lookupKey_append_left _ (by rw [h]; rfl), h]; rfl

/-! ## Frame lemmas for the completion steps -/

theorem lookupKey_addStep {c : Obj} {k : String} (st : String × (Obj → Option JVal))
    (h : hasKey c k = true) : lookupKey (addStep c st) k = lookupKey c k := by
  unfold addStep
  split
  · rfl
  · cases st.2 c with
    | none => rfl
    | some v => exact lookupKey_append_left _ h

theorem hasKey_addStep {c : Obj} {k : String} (st : String × (Obj → Option JVal))
    (h : hasKey c k = true) : hasKey (addStep c st) k = true := by
  unfold hasKey
  rw [lookupKey_addStep st h]
  exact h

theorem lookupKey_foldl_addStep (steps : List (String × (Obj → Option JVal)))
    {c : Obj} {k : String} (h : hasKey c k = true) :
    lookupKey (steps.foldl addStep c) k = lookupKey c k := by
  induction steps generalizing c with
  | nil => rfl
  | cons st tl ih =>
      rw [List.foldl_cons, ih (hasKey_addStep st h), lookupKey_addStep st h]

theorem hasKey_foldl_addStep (steps : List (String × (Obj → Option JVal)))
    {c : Obj} {k : String} (h : hasKey c k = true) :
    hasKey (steps.foldl addStep c) k = true := by
  unfold hasKey
  rw [lookupKey_foldl_addStep steps h]
  exact h

theorem hasKey_addStep_self (c : Obj) (st : String × (Obj → Option JVal))
    (hv : (st.2 c).isSome = true) : hasKey (addStep c st) st.1 = true := by
  unfold addStep
  split
  · assumption
  · cases hsome : st.2 c with
    | none => rw [hsome] at hv; simp at hv
    | some v => exact hasKey_append_singleton st.1 v

/-! ## C4: auto-completion never overwrites existing fields -/

/-- **C4**: for every input manifest `d` and key `k` present in `d`, the
document returned by `autocomplete_legacy_manifest` still maps `k` to
`d[k]`: completion only adds absent fields, never removes or overwrites. -/
theorem autocomplete_preserves_existing_fields
    (d : Obj) (m : RepoMetrics) (ri : ReleaseInfo) (k : String)
    (h : hasKey d k = true) :
    lookupKey (autocomplete_legacy_manifest d m ri) k = lookupKey d k := by
  unfold autocomplete_legacy_manifest
  split
  · rfl
  · cases hp : parseRepoUrl (getStrD d "repository" "") with
    | none => rfl
    | some p => exact lookupKey_foldl_addStep _ h

/-- Witness for C4 at a concrete legacy manifest carrying a `name` field. -/
theorem autocomplete_preserves_existing_fields_witness :
    lookupKey (autocomplete_legacy_manifest
        [("name", JVal.str "T"), ("repository", JVal.str "https://github.com/a/b")]
        ⟨"", "", "", "", []⟩ ⟨false, [], "", ""⟩) "name"
      = lookupKey [("name", JVal.str "T"),
          ("repository", JVal.str "https://github.com/a/b")] "name" :=
  autocomplete_preserves_existing_fields _ _ _ "name" (by decide)

/-! ## C3: auto-completion is idempotent and backs up at most once -/

theorem hasKey_slug_after_steps (d : Obj) (m : RepoMetrics) (ri : ReleaseInfo)
    (owner : String) :
    hasKey ((autocompleteSteps d m ri owner).foldl addStep d) "slug" = true := by
  unfold autocompleteSteps
  rw [List.foldl_cons]
  exact hasKey_foldl_addStep _ (hasKey_addStep_self d _ rfl)

theorem runBackups_true (n : Nat) : (runBackups n true).2 = 0 := by
  induction n with
  | zero => rfl
  | succ n ih => simp [runBackups, backupStep, ih]

/-- **C3**: auto-completion is idempotent — applying
`autocomplete_legacy_manifest` to the result of a first application returns
it unchanged (a completed manifest is no longer legacy) — and any number of
save runs writes the backup file at most once, because the write is guarded
by the existence check. -/
theorem autocomplete_idempotent_and_backup_once
    (d : Obj) (m : RepoMetrics) (ri : ReleaseInfo) (n : Nat) (e : Bool) :
    autocomplete_legacy_manifest (autocomplete_legacy_manifest d m ri) m ri
        = autocomplete_legacy_manifest d m ri
      ∧ (runBackups n e).2 ≤ 1 := by
  constructor
  · cases hleg : is_legacy_format d with
    | false =>
        have h : autocomplete_legacy_manifest d m ri = d := by
          unfold autocomplete_legacy_manifest
          rw [hleg]
          rfl
        rw [h]; exact h
    | true =>
        cases hp : parseRepoUrl (getStrD d "repository" "") with
        | none =>
            have h : autocomplete_legacy_manifest d m ri = d := by
              unfold autocomplete_legacy_manifest
              rw [hleg, hp]
              rfl
            rw [h]; exact h
        | some p =>
            obtain ⟨ow, rp⟩ := p
            have h : autocomplete_legacy_manifest d m ri
                = (autocompleteSteps d m ri ⟨ow⟩).foldl addStep d := by
              unfold autocomplete_legacy_manifest
              rw [hleg, hp]
              rfl
            have hslug : hasKey ((autocompleteSteps d m ri ⟨ow⟩).foldl addStep d) "slug"
                = true := hasKey_slug_after_steps d m ri ⟨ow⟩
            have hleg' : is_legacy_format ((autocompleteSteps d m ri ⟨ow⟩).foldl addStep d)
                = false := by
              unfold is_legacy_format
              simp [hslug]
            rw [h]
            unfold autocomplete_legacy_manifest
            rw [hleg']
            rfl
  · cases e with
    | true => rw [runBackups_true]; omega
    | false =>
        cases n with
        | zero => simp [runBackups]
        | succ n => simp [runBackups, backupStep, runBackups_true]

/-! ## C5: the URL Canonicalizer is idempotent -/

theorem convert_of_parse_none {u : String} (h : parseDownload u.data = none) :
    convert_to_latest_url u = u := by
  unfold convert_to_latest_url
  split
  · rfl
  · rw [h]

/-- **C5**: `_convert_to_latest_url` is idempotent on every URL string; in
particular a versioned `.../releases/download/<version>/<filename>` URL is
rewritten to the `releases/latest` URL, which is then left unchanged, and a
URL not of the versioned shape passes through unchanged. -/
theorem url_canonicalizer_idempotent (u v : String) (o r : List Char)
    (hv : parseDownload v.data = some (o, r))
    (hvg : (v.data.isEmpty || !containsSub "github.com".data v.data) = false)
    (hu : parseDownload u.data = none) :
    (∀ w : String,
        convert_to_latest_url (convert_to_latest_url w) = convert_to_latest_url w)
      ∧ convert_to_latest_url u = u
      ∧ convert_to_latest_url v = latestUrl o r
      ∧ convert_to_latest_url (latestUrl o r) = latestUrl o r := by
  obtain ⟨⟨ho1, ho2⟩, hr1, hr2⟩ := parseDownload_sound hv
  refine ⟨convert_to_latest_url_idem, convert_of_parse_none hu, ?_,
    convert_to_latest_url_latestUrl ho1 ho2 hr1 hr2⟩
  unfold convert_to_latest_url
  rw [if_neg (by rw [hvg]; simp), hv]

/-- Witness for C5: a versioned OBS download URL canonicalises to the latest
URL and a non-GitHub URL passes through, idempotently. -/
theorem url_canonicalizer_idempotent_witness :
    (∀ w : String,
        convert_to_latest_url (convert_to_latest_url w) = convert_to_latest_url w)
      ∧ convert_to_latest_url "https://example.com/x" = "https://example.com/x"
      ∧ convert_to_latest_url "https://github.com/a/b/releases/download/v1.0/tool.zip"
          = latestUrl "a".data "b".data
      ∧ convert_to_latest_url (latestUrl "a".data "b".data)
          = latestUrl "a".data "b".data :=
  url_canonicalizer_idempotent "https://example.com/x"
    "https://github.com/a/b/releases/download/v1.0/tool.zip" "a".data "b".data
    (by decide) (by decide) (by decide)

/-! ## C7: quality-score monotonicity and bounds -/

theorem pyInt_mono {a b : ℚ} (h : a ≤ b) : pyInt a ≤ pyInt b := by
  unfold pyInt
  by_cases ha : a < 0 <;> by_cases hb : b < 0
  · simp only [if_pos ha, if_pos hb]
    exact Int.ceil_mono h
  · simp only [if_pos ha, if_neg hb]
    have h1 : (⌈a⌉ : ℤ) ≤ 0 := Int.ceil_le.mpr (by exact_mod_cast ha.le)
    have h2 : (0 : ℤ) ≤ ⌊b⌋ := Int.floor_nonneg.mpr (not_lt.mp hb)
    omega
  · exact absurd (lt_of_le_of_lt h hb) ha
  · simp only [if_neg ha, if_neg hb]
    exact Int.floor_mono h

theorem pyInt_nonneg {a : ℚ} (h : 0 ≤ a) : 0 ≤ pyInt a := by
  unfold pyInt
  rw [if_neg (not_lt.mpr h)]
  exact Int.floor_nonneg.mpr h

theorem starsScore_nonneg (stars : ℕ) : 0 ≤ starsScore stars := by
  unfold starsScore
  exact le_min (by norm_num) (by positivity)

theorem forksScore_nonneg (forks : ℕ) : 0 ≤ forksScore forks := by
  unfold forksScore
  exact le_min (by norm_num) (by positivity)

theorem activityScoreQ_nonneg (lc : Option (Option ℤ)) : 0 ≤ activityScoreQ lc := by
  rcases lc with - | (- | days)
  · norm_num [activityScoreQ]
  · norm_num [activityScoreQ]
  · simp only [activityScoreQ]
    split_ifs <;> norm_num

theorem docScore_nonneg (tool : QualityToolData) : 0 ≤ docScore tool := by
  unfold docScore
  split_ifs <;> norm_num

theorem licenseScore_nonneg (tool : QualityToolData) : 0 ≤ licenseScore tool := by
  unfold licenseScore
  split_ifs <;> norm_num

theorem communityScore_nonneg (tool : QualityToolData) : 0 ≤ communityScore tool := by
  unfold communityScore
  split_ifs <;> norm_num

theorem starsScore_mono {s s' : ℕ} (h : s ≤ s') : starsScore s ≤ starsScore s' := by
  unfold starsScore
  apply min_le_min le_rfl
  have : (s : ℚ) ≤ (s' : ℚ) := Nat.cast_le.mpr h
  linarith

theorem forksScore_mono {f f' : ℕ} (h : f ≤ f') : forksScore f ≤ forksScore f' := by
  unfold forksScore
  apply min_le_min le_rfl
  have : (f : ℚ) ≤ (f' : ℚ) := Nat.cast_le.mpr h
  linarith

/-- **C7**: the quality score is monotonically non-decreasing in the stars
metric and in the forks metric with every other input held fixed, and always
lies in [0, 100].  The weight configuration comes from
`schemas/validation-rules.json`, which is not among these sources, and is
modelled from the spec as the identity weights `defaultWeights`. -/
theorem quality_score_monotone_and_bounded
    (tool : QualityToolData) (stars stars' forks forks' : ℕ)
    (lc : Option (Option ℤ)) (hs : stars ≤ stars') (hf : forks ≤ forks') :
    calculate_quality_score defaultWeights tool ⟨stars, forks, lc⟩
        ≤ calculate_quality_score defaultWeights tool ⟨stars', forks', lc⟩
      ∧ 0 ≤ calculate_quality_score defaultWeights tool ⟨stars, forks, lc⟩
      ∧ calculate_quality_score defaultWeights tool ⟨stars, forks, lc⟩ ≤ 100 := by
  unfold calculate_quality_score defaultWeights
  simp only [mul_one]
  refine ⟨?_, ?_, min_le_left _ _⟩
  · apply min_le_min le_rfl
    apply pyInt_mono
    have h1 := starsScore_mono hs
    have h2 := forksScore_mono hf
    linarith
  · apply le_min (by norm_num)
    apply pyInt_nonneg
    have h1 := starsScore_nonneg stars
    have h2 := forksScore_nonneg forks
    have h3 := activityScoreQ_nonneg lc
    have h4 := docScore_nonneg tool
    have h5 := licenseScore_nonneg tool
    have h6 := communityScore_nonneg tool
    linarith

/-- Witness for C7 at concrete star/fork counts. -/
theorem quality_score_monotone_and_bounded_witness :
    calculate_quality_score defaultWeights ⟨"", "", "", "", []⟩ ⟨1, 3, none⟩
        ≤ calculate_quality_score defaultWeights ⟨"", "", "", "", []⟩ ⟨2, 4, none⟩
      ∧ 0 ≤ calculate_quality_score defaultWeights ⟨"", "", "", "", []⟩ ⟨1, 3, none⟩
      ∧ calculate_quality_score defaultWeights ⟨"", "", "", "", []⟩ ⟨1, 3, none⟩ ≤ 100 :=
  quality_score_monotone_and_bounded ⟨"", "", "", "", []⟩ 1 2 3 4 none
    (by decide) (by decide)

/-! ## C8: health-score bounds and the archived deduction -/

theorem healthActivity_mono (p : Option (Option ℤ)) {b b' : ℚ} (h : b ≤ b') :
    healthActivity p b ≤ healthActivity p b' := by
  rcases p with - | p
  · unfold healthActivity; linarith
  · rcases p with - | days
    · unfold healthActivity; linarith
    · unfold healthActivity
      have : b * (3 / 4) ≤ b' * (3 / 4) := by linarith
      exact add_le_add_right this _

theorem isCriticalIssue_archived : isCriticalIssue "Repository is archived" = true := by
  decide

theorem criticalPenalty_cons_archived (issues : List String) :
    criticalPenalty ("Repository is archived" :: issues)
      = criticalPenalty issues + 50 := by
  unfold criticalPenalty
  rw [List.filter_cons_of_pos isCriticalIssue_archived]
  push_cast [List.length_cons]
  ring

/-- Counterexample to **C8** as stated: with a recent push, README, CI, 100
stars, 10 contributors and 10 recent commits, adding the archived issue
lowers the health score only from 100 to 92 — a drop of 8, not of at least
50 (the 50-point deduction hits the base before the 0.75 recombination, and
the unarchived score saturates at the upper clamp). -/
theorem health_score_archived_drop_counterexample :
    calculate_health_score ⟨some (some 10), true, true, 100, 10, 10⟩ [] = 100
      ∧ calculate_health_score ⟨some (some 10), true, true, 100, 10, 10⟩
          ["Repository is archived"] = 92
      ∧ ¬(50 ≤ calculate_health_score ⟨some (some 10), true, true, 100, 10, 10⟩ []
            - calculate_health_score ⟨some (some 10), true, true, 100, 10, 10⟩
              ["Repository is archived"]) := by
  have hpen : criticalPenalty ["Repository is archived"] = 50 := by
    rw [criticalPenalty_cons_archived]
    norm_num [criticalPenalty]
  have h1 : calculate_health_score ⟨some (some 10), true, true, 100, 10, 10⟩ [] = 100 := by
    norm_num [calculate_health_score, criticalPenalty, healthActivity, healthBonuses, pyInt]
  have h2 : calculate_health_score ⟨some (some 10), true, true, 100, 10, 10⟩
      ["Repository is archived"] = 92 := by
    norm_num [calculate_health_score, hpen, healthActivity, healthBonuses, pyInt]
  refine ⟨h1, h2, ?_⟩
  rw [h1, h2]
  decide

/-- **C8 (amended)**: the health score always lies in [0, 100], and adding
the archived issue never increases it — but because the 50-point deduction is
applied to the base before the `0.75·base + activity` recombination and the
clamps, the final drop can be smaller than 50. -/
theorem health_score_bounds_and_archived_monotone
    (metrics : HealthMetrics) (issues : List String) :
    (0 ≤ calculate_health_score metrics issues
        ∧ calculate_health_score metrics issues ≤ 100)
      ∧ calculate_health_score metrics ("Repository is archived" :: issues)
          ≤ calculate_health_score metrics issues := by
  refine ⟨⟨le_max_left _ _, max_le (by norm_num) (min_le_left _ _)⟩, ?_⟩
  apply max_le_max le_rfl
  apply min_le_min le_rfl
  apply pyInt_mono
  apply add_le_add_right
  apply healthActivity_mono
  rw [criticalPenalty_cons_archived]
  linarith

/-! ## C1: the OBS end-to-end resolution scenario -/

/-- The key list of a `platforms`-shaped installation config. -/
def platformsKeys (v : JVal) : Option (List String) :=
  match v with
  | .obj [("platforms", .obj ps)] => some (ps.map Prod.fst)
  | _ => none

/-- The release assets of end-to-end scenario A. -/
def obsAssets : List Asset :=
  [⟨"OBS-Studio-31.1.2-Windows-x64.zip",
    "https://github.com/obsproject/obs-studio/releases/download/31.1.2/OBS-Studio-31.1.2-Windows-x64.zip"⟩,
   ⟨"obs-studio_31.1.2-1_amd64.deb",
    "https://github.com/obsproject/obs-studio/releases/download/31.1.2/obs-studio_31.1.2-1_amd64.deb"⟩,
   ⟨"obs-studio-31.1.2-macos.dmg",
    "https://github.com/obsproject/obs-studio/releases/download/31.1.2/obs-studio-31.1.2-macos.dmg"⟩]

/-- The release info `_get_github_releases_info` would assemble for this
release: it has releases, the detected platform assets, and the first
matching asset as primary. -/
def obsReleaseInfo : ReleaseInfo :=
  ⟨true, detect_platform_assets obsAssets, "OBS-Studio-31.1.2-Windows-x64.zip",
   "https://github.com/obsproject/obs-studio/releases/download/31.1.2/OBS-Studio-31.1.2-Windows-x64.zip"⟩

/-- **C1**: on the OBS asset list, `_detect_platform_assets` produces a
mapping with key set exactly {windows, linux, macos} — windows bound to the
`.zip` via the priority-40 fallback rule, linux to the `.deb`, macos to the
`.dmg` — and `_generate_installation_config` on that mapping emits a
`platforms`-shaped config whose map has exactly those three keys. -/
theorem obs_scenario_resolution :
    ((detect_platform_assets obsAssets).map Prod.fst = ["windows", "linux", "macos"])
      ∧ ((lookupKey (detect_platform_assets obsAssets) "windows").map PlatformMatch.name
          = some "OBS-Studio-31.1.2-Windows-x64.zip")
      ∧ ((lookupKey (detect_platform_assets obsAssets) "linux").map PlatformMatch.name
          = some "obs-studio_31.1.2-1_amd64.deb")
      ∧ ((lookupKey (detect_platform_assets obsAssets) "macos").map PlatformMatch.name
          = some "obs-studio-31.1.2-macos.dmg")
      ∧ ((lookupKey (obsAssets.foldl processAsset []) "windows").map (fun e => e.2)
          = some 40)
      ∧ platformsKeys (generate_installation_config obsReleaseInfo ⟨"", "C++", "", "", []⟩)
          = some ["windows", "linux", "macos"] :=
  ⟨rfl, rfl, rfl, rfl, rfl, rfl⟩

/-! ## C2: the leading-digit tool name defeats the version-stripping regex -/

/-- **C2** (code bug): the source's own comment documents
`"7z2501-arm" -> "7z"`, but `re.match(r'^([a-z]+)\d.*', ...)` requires the
name to start with a letter, and `'7'` is a digit, so no cascade rule fires:
both filenames are returned unchanged instead of the common `"7z.zip"`, and
the two outputs are not even equal to each other. -/
theorem seven_zip_pattern_unchanged :
    generate_generic_executable_name "7z2501-arm.zip" "windows" = "7z2501-arm.zip"
      ∧ generate_generic_executable_name "7z2502-x64.zip" "windows" = "7z2502-x64.zip"
      ∧ generate_generic_executable_name "7z2501-arm.zip" "windows" ≠ "7z.zip"
      ∧ generate_generic_executable_name "7z2501-arm.zip" "windows"
          ≠ generate_generic_executable_name "7z2502-x64.zip" "windows" :=
  ⟨rfl, rfl, by decide, by decide⟩

/-! ## C6: excluded assets are bound to no platform -/

/-- The invariant of the resolver's accumulator: every stored entry was
built from a non-excluded asset and records that asset's name. -/
def entryOk (e : String × (PlatformMatch × Int)) : Prop :=
  isExcluded (lowerStr e.2.1.asset.name.data) = false ∧ e.2.1.name = e.2.1.asset.name

theorem mem_setKey {α : Type} {m : List (String × α)} {k : String} {v : α}
    {e : String × α} (he : e ∈ setKey m k v) : e = (k, v) ∨ e ∈ m := by
  induction m with
  | nil =>
      simp only [setKey, List.mem_singleton] at he
      exact Or.inl he
  | cons p tl ih =>
      obtain ⟨k', v'⟩ := p
      unfold setKey at he
      split at he
      · rcases List.mem_cons.mp he with h | h
        · exact Or.inl h
        · exact Or.inr (List.mem_cons_of_mem _ h)
      · rcases List.mem_cons.mp he with h | h
        · exact Or.inr (h ▸ List.mem_cons_self _ _)
        · rcases ih h with h' | h'
          · exact Or.inl h'
          · exact Or.inr (List.mem_cons_of_mem _ h')

theorem entryOk_new (asset : Asset) (platform : String) (pr : Int)
    (hA : isExcluded (lowerStr asset.name.data) = false) :
    entryOk (platform, (mkBestMatch asset platform, pr)) :=
  ⟨hA, rfl⟩

theorem processPlatform_ok {asset : Asset}
    (hA : isExcluded (lowerStr asset.name.data) = false)
    {pa : List (String × (PlatformMatch × Int))} (h : ∀ e ∈ pa, entryOk e)
    (pl : String × List (Pat × Int)) :
    ∀ e ∈ processPlatform asset pa pl, entryOk e := by
  intro e he
  simp only [processPlatform] at he
  split at he
  · split at he
    · rcases mem_setKey he with h' | h'
      · exact h' ▸ entryOk_new asset pl.1 _ hA
      · exact h e h'
    · split at he
      · rcases mem_setKey he with h' | h'
        · exact h' ▸ entryOk_new asset pl.1 _ hA
        · exact h e h'
      · exact h e he
  · exact h e he

theorem foldl_processPlatform_ok {asset : Asset}
    (hA : isExcluded (lowerStr asset.name.data) = false)
    (pls : List (String × List (Pat × Int))) :
    ∀ pa, (∀ e ∈ pa, entryOk e) →
      ∀ e ∈ pls.foldl (processPlatform asset) pa, entryOk e := by
  induction pls with
  | nil => intro pa h e he; exact h e he
  | cons pl tl ih =>
      intro pa h e he
      rw [List.foldl_cons] at he
      exact ih _ (processPlatform_ok hA h pl) e he

theorem processAsset_ok {pa : List (String × (PlatformMatch × Int))} {asset : Asset}
    (h : ∀ e ∈ pa, entryOk e) : ∀ e ∈ processAsset pa asset, entryOk e := by
  intro e he
  unfold processAsset at he
  split at he
  · exact h e he
  case isFalse hexc => exact foldl_processPlatform_ok (by simpa using hexc) _ pa h e he

theorem detect_foldl_ok (assets : List Asset) :
    ∀ pa, (∀ e ∈ pa, entryOk e) → ∀ e ∈ assets.foldl processAsset pa, entryOk e := by
  induction assets with
  | nil => intro pa h e he; exact h e he
  | cons a tl ih =>
      intro pa h e he
      rw [List.foldl_cons] at he
      exact ih _ (fun e' he' => processAsset_ok h e' he') e he

theorem lookupKey_mem {α : Type} {m : List (String × α)} {k : String} {v : α}
    (h : lookupKey m k = some v) : (k, v) ∈ m := by
  induction m with
  | nil => simp [lookupKey] at h
  | cons p tl ih =>
      obtain ⟨k', v'⟩ := p
      by_cases he : k' = k
      · subst he
        unfold lookupKey at h
        rw [if_pos rfl] at h
        injection h with h
        exact h ▸ List.mem_cons_self _ _
      · unfold lookupKey at h
        rw [if_neg he] at h
        exact List.mem_cons_of_mem _ (ih h)

/-- **C6**: an asset whose lower-cased filename contains one of the
debug/development markers (`debug`, `pdb`, `symbols`, `dev`, `source`,
`src`) is never bound to any platform: every entry of the mapping produced
by `_detect_platform_assets` records an asset whose name passes the
exclusion filter. -/
theorem excluded_assets_never_bound
    (assets : List Asset) (platform : String) (pm : PlatformMatch)
    (h : lookupKey (detect_platform_assets assets) platform = some pm) :
    isExcluded (lowerStr pm.asset.name.data) = false ∧ pm.name = pm.asset.name := by
  unfold detect_platform_assets at h
  have hmem := lookupKey_mem h
  rw [List.mem_map] at hmem
  obtain ⟨e, hin, heq⟩ := hmem
  have hok := detect_foldl_ok assets [] (by intro e' he'; simp at he') e hin
  have h2 : e.2.1 = pm := congrArg Prod.snd heq
  rw [← h2]
  exact hok

/-- Witness for C6 at a one-asset release resolved to windows. -/
theorem excluded_assets_never_bound_witness :
    isExcluded (lowerStr
        (⟨⟨"tool-windows.exe", "u"⟩, "tool-windows.exe", "u", "executable",
          "tool.exe"⟩ : PlatformMatch).asset.name.data) = false
      ∧ (⟨⟨"tool-windows.exe", "u"⟩, "tool-windows.exe", "u", "executable",
          "tool.exe"⟩ : PlatformMatch).name
        = (⟨⟨"tool-windows.exe", "u"⟩, "tool-windows.exe", "u", "executable",
          "tool.exe"⟩ : PlatformMatch).asset.name :=
  excluded_assets_never_bound [⟨"tool-windows.exe", "u"⟩] "windows" _ (by decide)

/-! ## C9: the no-releases legacy completion scenario -/

/-- The `url` entry of a document's `installation` object, when both exist. -/
def installationUrl (d : Obj) : Option JVal :=
  match lookupKey d "installation" with
  | some (.obj inst) => lookupKey inst "url"
  | _ => none

/-- The `compatibility.platforms` string list of a document, when present. -/
def compatibilityPlatforms (d : Obj) : Option (List String) :=
  match lookupKey d "compatibility" with
  | some (.obj compat) =>
      match lookupKey compat "platforms" with
      | some (.list vs) =>
          some (vs.filterMap (fun v => match v with | .str s => some s | _ => none))
      | _ => none
  | _ => none

/-- The compatibility platform list determined purely by the repository
language: the completion's mapping loop applied to the no-assets language
fallback of `_detect_platforms_from_releases`, with the completion's
`or ["windows"]` default. -/
def compatFromLanguageFallback (lang : String) : List String :=
  let ps := compatLoop [] (detect_platforms_from_releases [] lang)
  if ps.isEmpty then ["windows"] else ps

theorem lookupKey_eq_none_of_hasKey_false {α : Type} {m : List (String × α)}
    {k : String} (h : hasKey m k = false) : lookupKey m k = none := by
  unfold hasKey at h
  cases hl : lookupKey m k with
  | none => rfl
  | some v => rw [hl] at h; simp at h

theorem lookupKey_addStep_ne {k : String} (st : String × (Obj → Option JVal))
    (c : Obj) (hne : st.1 ≠ k) : lookupKey (addStep c st) k = lookupKey c k := by
  unfold addStep
  split
  · rfl
  · cases st.2 c with
    | none => rfl
    | some v => exact lookupKey_append_singleton_ne hne c v

theorem hasKey_addStep_ne {k : String} (st : String × (Obj → Option JVal))
    (c : Obj) (hne : st.1 ≠ k) : hasKey (addStep c st) k = hasKey c k := by
  unfold hasKey
  rw [lookupKey_addStep_ne st c hne]

theorem lookupKey_addStep_self_some {k : String} {f : Obj → Option JVal} (c : Obj)
    (hk : hasKey c k = false) {v : JVal} (hf : f c = some v) :
    lookupKey (addStep c (k, f)) k = some v := by
  unfold addStep
  dsimp only
  rw [if_neg (by simp [hk]), hf]
  exact lookupKey_append_singleton_self c k v (lookupKey_eq_none_of_hasKey_false hk)

theorem filterMap_str_map (l : List String) :
    (l.map JVal.str).filterMap
      (fun v => match v with | .str s => some s | _ => none) = l := by
  induction l with
  | nil => rfl
  | cons s tl ih => simp only [List.map_cons, List.filterMap_cons, ih]

/-- Counterexample to **C9** as stated: in scenario B the synthesized flat
installation stub carries no `url` key at all — the claim's flat record with
a present-but-empty `url` does not match the code's output. -/
theorem scenario_b_counterexample :
    installationUrl (autocomplete_legacy_manifest
        [("name", JVal.str "MyTool"), ("description", JVal.str "A tool"),
         ("repository", JVal.str "https://github.com/owner/repo")]
        ⟨"", "C++", "GPL-3.0", "", []⟩ ⟨false, [], "", ""⟩) = none
      ∧ installationUrl (autocomplete_legacy_manifest
          [("name", JVal.str "MyTool"), ("description", JVal.str "A tool"),
           ("repository", JVal.str "https://github.com/owner/repo")]
          ⟨"", "C++", "GPL-3.0", "", []⟩ ⟨false, [], "", ""⟩)
        ≠ some (JVal.str "") := by
  refine ⟨rfl, ?_⟩
  intro hcontra
  rw [show installationUrl (autocomplete_legacy_manifest
      [("name", JVal.str "MyTool"), ("description", JVal.str "A tool"),
       ("repository", JVal.str "https://github.com/owner/repo")]
      ⟨"", "C++", "GPL-3.0", "", []⟩ ⟨false, [], "", ""⟩) = none from rfl] at hcontra
  exact Option.noConfusion hcontra

theorem lookupKey_foldl_addStep_ne (steps : List (String × (Obj → Option JVal)))
    {k : String} (h : steps.all (fun st => st.1 != k) = true) (c : Obj) :
    lookupKey (steps.foldl addStep c) k = lookupKey c k := by
  induction steps generalizing c with
  | nil => rfl
  | cons st tl ih =>
      rw [List.all_cons, Bool.and_eq_true] at h
      rw [List.foldl_cons, ih h.2, lookupKey_addStep_ne st c (by simpa using h.1)]

theorem hasKey_foldl_addStep_ne (steps : List (String × (Obj → Option JVal)))
    {k : String} (h : steps.all (fun st => st.1 != k) = true) (c : Obj) :
    hasKey (steps.foldl addStep c) k = hasKey c k := by
  unfold hasKey
  rw [lookupKey_foldl_addStep_ne steps h c]

/-- Locating one completion step: when no earlier or later step carries key
`k` and `k` is absent from the start document, the completed document's `k`
entry is exactly what the step's computation produced on the document
completed so far. -/
theorem lookupKey_foldl_addStep_find (pre post : List (String × (Obj → Option JVal)))
    (k : String) (f : Obj → Option JVal) (c : Obj)
    (hpre : pre.all (fun st => st.1 != k) = true)
    (hpost : post.all (fun st => st.1 != k) = true)
    (hk : hasKey c k = false) :
    lookupKey ((pre ++ (k, f) :: post).foldl addStep c) k = f (pre.foldl addStep c) := by
  rw [List.foldl_append, List.foldl_cons]
  have hk' : hasKey (pre.foldl addStep c) k = false := by
    rw [hasKey_foldl_addStep_ne pre hpre c]
    exact hk
  cases hf : f (pre.foldl addStep c) with
  | none =>
      have hstep : addStep (pre.foldl addStep c) (k, f) = pre.foldl addStep c := by
        show (if hasKey (pre.foldl addStep c) k = true then pre.foldl addStep c
              else match f (pre.foldl addStep c) with
                   | some v => pre.foldl addStep c ++ [(k, v)]
                   | none => pre.foldl addStep c) = pre.foldl addStep c
        rw [if_neg (by simp [hk']), hf]
      rw [lookupKey_foldl_addStep_ne post hpost, hstep]
      exact lookupKey_eq_none_of_hasKey_false hk'
  | some v =>
      rw [lookupKey_foldl_addStep_ne post hpost,
        lookupKey_addStep_self_some _ hk' hf]

theorem autocomplete_eq_foldl (d : Obj) (m : RepoMetrics) (ri : ReleaseInfo)
    {ow rp : List Char} (hleg : is_legacy_format d = true)
    (hu : parseRepoUrl (getStrD d "repository" "") = some (ow, rp)) :
    autocomplete_legacy_manifest d m ri
      = (autocompleteSteps d m ri ⟨ow⟩).foldl addStep d := by
  unfold autocomplete_legacy_manifest
  rw [hleg, hu]
  rfl

theorem autocomplete_lookup_installation (d : Obj) (m : RepoMetrics) (ri : ReleaseInfo)
    {ow rp : List Char} (hleg : is_legacy_format d = true)
    (hu : parseRepoUrl (getStrD d "repository" "") = some (ow, rp))
    (hk : hasKey d "installation" = false) :
    lookupKey (autocomplete_legacy_manifest d m ri) "installation"
      = some (generate_installation_config ri m) := by
  rw [autocomplete_eq_foldl d m ri hleg hu]
  rw [show autocompleteSteps d m ri ⟨ow⟩
      = (autocompleteSteps d m ri ⟨ow⟩).take 6
        ++ ("installation", fun _ => some (generate_installation_config ri m))
          :: (autocompleteSteps d m ri ⟨ow⟩).drop 7 from rfl]
  exact lookupKey_foldl_addStep_find _ _ _ _ _ rfl rfl hk

theorem autocomplete_lookup_platforms (d : Obj) (m : RepoMetrics) (ri : ReleaseInfo)
    (ow : String) (hk : hasKey d "platforms" = false) :
    lookupKey (((autocompleteSteps d m ri ow).take 5).foldl addStep d) "platforms"
      = some (.list ((detect_platforms_from_releases [] m.language).map .str)) := by
  rw [show (autocompleteSteps d m ri ow).take 5
      = ((autocompleteSteps d m ri ow).take 5).take 2
        ++ ("platforms", fun _ =>
            some (.list ((detect_platforms_from_releases [] m.language).map .str)))
          :: ((autocompleteSteps d m ri ow).take 5).drop 3 from rfl]
  exact lookupKey_foldl_addStep_find _ _ _ _ _ rfl rfl hk

theorem autocomplete_lookup_compatibility (d : Obj) (m : RepoMetrics) (ri : ReleaseInfo)
    {ow rp : List Char} (hleg : is_legacy_format d = true)
    (hu : parseRepoUrl (getStrD d "repository" "") = some (ow, rp))
    (hk : hasKey d "compatibility" = false) :
    lookupKey (autocomplete_legacy_manifest d m ri) "compatibility"
      = some (compatValue (((autocompleteSteps d m ri ⟨ow⟩).take 5).foldl addStep d)) := by
  rw [autocomplete_eq_foldl d m ri hleg hu]
  conv_lhs => rw [show autocompleteSteps d m ri ⟨ow⟩
      = (autocompleteSteps d m ri ⟨ow⟩).take 5
        ++ ("compatibility", fun c => some (compatValue c))
          :: (autocompleteSteps d m ri ⟨ow⟩).drop 6 from rfl]
  exact lookupKey_foldl_addStep_find _ _ _ _ _ rfl rfl hk

/-- **C9 (amended)**: a legacy manifest containing only `name`, `description`
and a parseable GitHub `repository` URL, completed against a repository with
no releases, receives as `installation` exactly the flat stub
`{type: "executable", args: [], postInstall: "", checksum: ""}` — the stub
carries no `url` key at all — and its `compatibility.platforms` is derived
purely from the repository-language fallback of the platform detector. -/
theorem scenario_b_amended (n desc u : String) (ow rp : List Char)
    (m : RepoMetrics) (ri : ReleaseInfo)
    (hu : parseRepoUrl u = some (ow, rp)) (hri : ri.has_releases = false) :
    lookupKey (autocomplete_legacy_manifest
        [("name", JVal.str n), ("description", JVal.str desc),
         ("repository", JVal.str u)] m ri) "installation"
      = some (.obj [("type", .str "executable"), ("args", .list []),
          ("postInstall", .str ""), ("checksum", .str "")])
    ∧ installationUrl (autocomplete_legacy_manifest
        [("name", JVal.str n), ("description", JVal.str desc),
         ("repository", JVal.str u)] m ri) = none
    ∧ compatibilityPlatforms (autocomplete_legacy_manifest
        [("name", JVal.str n), ("description", JVal.str desc),
         ("repository", JVal.str u)] m ri)
      = some (compatFromLanguageFallback m.language) := by
  have hgic : generate_installation_config ri m
      = .obj [("type", .str "executable"), ("args", .list []),
          ("postInstall", .str ""), ("checksum", .str "")] := by
    unfold generate_installation_config
    rw [hri]
    rfl
  have hinst := autocomplete_lookup_installation
    [("name", JVal.str n), ("description", JVal.str desc), ("repository", JVal.str u)]
    m ri rfl hu rfl
  refine ⟨by rw [hinst, hgic], ?_, ?_⟩
  · unfold installationUrl
    rw [hinst, hgic]
    rfl
  · have hcompat := autocomplete_lookup_compatibility
      [("name", JVal.str n), ("description", JVal.str desc), ("repository", JVal.str u)]
      m ri rfl hu rfl
    have hplat := autocomplete_lookup_platforms
      [("name", JVal.str n), ("description", JVal.str desc), ("repository", JVal.str u)]
      m ri ⟨ow⟩ rfl
    unfold compatibilityPlatforms
    rw [hcompat]
    unfold compatValue getPlatforms
    rw [hplat]
    dsimp only
    rw [filterMap_str_map]
    simp only [lookupKey]
    rw [if_neg (by decide), if_neg (by decide), if_pos trivial]
    dsimp only
    rw [filterMap_str_map]
    rfl

/-- Witness for C9 (amended) at the concrete MyTool scenario. -/
theorem scenario_b_amended_witness :
    lookupKey (autocomplete_legacy_manifest
        [("name", JVal.str "MyTool"), ("description", JVal.str "A tool"),
         ("repository", JVal.str "https://github.com/owner/repo")]
        ⟨"", "C++", "GPL-3.0", "", []⟩ ⟨false, [], "", ""⟩) "installation"
      = some (.obj [("type", .str "executable"), ("args", .list []),
          ("postInstall", .str ""), ("checksum", .str "")])
    ∧ installationUrl (autocomplete_legacy_manifest
        [("name", JVal.str "MyTool"), ("description", JVal.str "A tool"),
         ("repository", JVal.str "https://github.com/owner/repo")]
        ⟨"", "C++", "GPL-3.0", "", []⟩ ⟨false, [], "", ""⟩) = none
    ∧ compatibilityPlatforms (autocomplete_legacy_manifest
        [("name", JVal.str "MyTool"), ("description", JVal.str "A tool"),
         ("repository", JVal.str "https://github.com/owner/repo")]
        ⟨"", "C++", "GPL-3.0", "", []⟩ ⟨false, [], "", ""⟩)
      = some (compatFromLanguageFallback "C++") :=
  scenario_b_amended "MyTool" "A tool" "https://github.com/owner/repo"
    "owner".data "repo".data ⟨"", "C++", "GPL-3.0", "", []⟩ ⟨false, [], "", ""⟩
    (by decide) rfl

/-! ## C10: compound `.tar.gz` extensions collapse to `.gz` -/

/-- String suffix test on code points. -/
def strEndsWith (s suff : String) : Bool := suff.data.isSuffixOf s.data

theorem toLower_of_isAsciiLower {c : Char} (h : isAsciiLower c = true) :
    c.toLower = c := by
  unfold isAsciiLower at h
  simp only [Bool.and_eq_true, decide_eq_true_eq] at h
  simp only [Char.toLower]
  rw [if_neg (by omega)]

theorem isSuffixOf_iff {l₁ l₂ : List Char} :
    l₁.isSuffixOf l₂ = true ↔ l₁ <:+ l₂ := by
  unfold List.isSuffixOf
  rw [List.isPrefixOf_iff_prefix, List.reverse_prefix]

theorem reverse_targz (c : Char) (cs : List Char) :
    (c :: cs ++ ".tar.gz".data).reverse
      = 'z' :: 'g' :: '.' :: ('r' :: 'a' :: 't' :: '.' :: (cs.reverse ++ [c])) := by
  show (c :: (cs ++ ".tar.gz".data)).reverse = _
  rw [List.reverse_cons, List.reverse_append]
  rw [show (".tar.gz".data).reverse = ['z', 'g', '.', 'r', 'a', 't', '.'] from rfl]
  simp [List.append_assoc]

theorem extractExt_targz (c : Char) (cs : List Char) :
    extractExt (c :: cs ++ ".tar.gz".data) = some ['g', 'z'] := by
  unfold extractExt
  rw [reverse_targz]
  simp +decide [List.dropWhile, List.takeWhile]

theorem removeExt_targz (c : Char) (cs : List Char) :
    removeExt (c :: cs ++ ".tar.gz".data) = c :: (cs ++ ".tar".data) := by
  unfold removeExt
  rw [extractExt_targz]
  dsimp only
  rw [show (['g', 'z'] : List Char).length + 1 = 3 from rfl]
  rw [show (c :: cs ++ ".tar.gz".data).length - 3 = (c :: cs).length + 4 from by
    simp only [List.length_cons, List.length_append,
      show (".tar.gz".data : List Char).length = 7 from rfl]
    omega]
  rw [show c :: cs ++ ".tar.gz".data = (c :: cs) ++ (".tar".data ++ ".gz".data) from by simp]
  rw [List.take_append]
  rw [List.take_left' (show (".tar".data : List Char).length = 4 from rfl)]
  simp

theorem lowerStr_targz (c : Char) (cs : List Char) (h : isAsciiLower c = true) :
    lowerStr (c :: cs ++ ".tar.gz".data) = c :: lowerStr cs ++ ".tar.gz".data := by
  unfold lowerStr
  simp only [List.map_cons, List.map_append, toLower_of_isAsciiLower h]
  rfl

theorem pat1_chars {s core : List Char} (h : pat1 s = some core) :
    ∀ ch ∈ core, isAsciiLower ch = true := by
  simp only [pat1] at h
  split at h
  · split at h
    · injection h with h'
      subst h'
      intro ch hch
      exact List.mem_takeWhile_imp hch
    · exact absurd h (by simp)
  · exact absurd h (by simp)

theorem pat3_chars {s core : List Char} (h : pat3 s = some core) :
    ∀ ch ∈ core, isAsciiLower ch = true := by
  simp only [pat3] at h
  split at h
  · exact absurd h (by simp)
  · injection h with h'
    subst h'
    intro ch hch
    exact List.mem_takeWhile_imp hch

theorem pat2Go_chars {s : List Char} : ∀ {acc core : List Char},
    (∀ ch ∈ acc, isAsciiLower ch = true ∨ ch = '-') →
    pat2Go acc s = some core → ∀ ch ∈ core, isAsciiLower ch = true ∨ ch = '-' := by
  induction s with
  | nil =>
      intro acc core hacc h
      simp [pat2Go] at h
  | cons x tl ih =>
      intro acc core hacc h
      unfold pat2Go at h
      split at h
      · injection h with h'
        subst h'
        intro ch hch
        exact hacc ch (List.mem_reverse.mp hch)
      · split at h
        case isTrue hx =>
            refine ih ?_ h
            intro ch hch
            rcases List.mem_cons.mp hch with rfl | hmem
            · simpa using hx
            · exact hacc ch hmem
        case isFalse => exact absurd h (by simp)

theorem mem_rstrip {l : List Char} {ch : Char}
    (h : ch ∈ rstripDashUnderscore l) : ch ∈ l := by
  unfold rstripDashUnderscore at h
  rw [List.mem_reverse] at h
  exact List.mem_reverse.mp ((List.dropWhile_sublist _).subset h)

theorem pat3_of_head {c : Char} (cs : List Char) (h : isAsciiLower c = true) :
    pat3 (c :: cs) = some (c :: cs.takeWhile isAsciiLower) := by
  simp only [pat3]
  rw [List.takeWhile_cons_of_pos h]
  rfl

/-- A pattern result of the shape `core ++ ".gz"` with a dot-free core ends
in `.gz` but not in `.tar.gz`. -/
theorem ends_core_gz {core : List Char} (hdot : '.' ∉ core) :
    strEndsWith ⟨core ++ '.' :: "gz".data⟩ ".gz" = true
      ∧ strEndsWith ⟨core ++ '.' :: "gz".data⟩ ".tar.gz" = false := by
  constructor
  · unfold strEndsWith
    rw [isSuffixOf_iff]
    exact List.suffix_append core ('.' :: "gz".data)
  · unfold strEndsWith
    rw [Bool.eq_false_iff]
    intro hsuf
    rw [isSuffixOf_iff] at hsuf
    have hpre : (".tar.gz".data).reverse <+: (core ++ '.' :: "gz".data).reverse :=
      List.reverse_prefix.mpr hsuf
    rw [show (".tar.gz".data).reverse
        = ['z', 'g', '.'] ++ ['r', 'a', 't', '.'] from rfl] at hpre
    rw [show (core ++ '.' :: "gz".data).reverse = ['z', 'g', '.'] ++ core.reverse from by
      rw [List.reverse_append]; rfl] at hpre
    rw [List.prefix_append_right_inj] at hpre
    have hmem : '.' ∈ core.reverse := hpre.subset (by decide)
    exact hdot (List.mem_reverse.mp hmem)

/-- **C10**: the Executable Name Synthesizer treats only the text after the
final dot as the extension: for every filename of the shape
`stem ++ ".tar.gz"` whose stem begins with a lowercase ASCII letter, the
synthesized pattern ends in `.gz` and not in `.tar.gz` — the `.tar`
component of the compound extension is dropped. -/
theorem targz_pattern_drops_tar (c : Char) (cs : List Char) (platform : String)
    (h : isAsciiLower c = true) :
    strEndsWith
        (generate_generic_executable_name ⟨c :: cs ++ ".tar.gz".data⟩ platform)
        ".gz" = true
      ∧ strEndsWith
        (generate_generic_executable_name ⟨c :: cs ++ ".tar.gz".data⟩ platform)
        ".tar.gz" = false := by
  unfold generate_generic_executable_name
  rw [show (⟨c :: cs ++ ".tar.gz".data⟩ : String).data
      = c :: cs ++ ".tar.gz".data from rfl]
  rw [extractExt_targz]
  dsimp only
  rw [lowerStr_targz c cs h, removeExt_targz c (lowerStr cs)]
  cases h1 : pat1 (c :: (lowerStr cs ++ ".tar".data)) with
  | some core =>
      dsimp only
      refine ends_core_gz (fun hm => ?_)
      exact absurd (pat1_chars h1 '.' hm) (by decide)
  | none =>
      dsimp only
      cases h2 : pat2 (c :: (lowerStr cs ++ ".tar".data)) with
      | some core =>
          dsimp only
          refine ends_core_gz (fun hm => ?_)
          rcases pat2Go_chars (by intro ch hch; simp at hch) h2 '.' (mem_rstrip hm)
            with h' | h'
          · exact absurd h' (by decide)
          · exact absurd h' (by decide)
      | none =>
          dsimp only
          rw [pat3_of_head (lowerStr cs ++ ".tar".data) h]
          dsimp only
          refine ends_core_gz (fun hm => ?_)
          rcases List.mem_cons.mp hm with hc | hmem
          · rw [← hc] at h
            exact absurd h (by decide)
          · exact absurd (List.mem_takeWhile_imp hmem) (by decide)

/-- Witness for C10 at the concrete filename `tool-1.2.tar.gz`. -/
theorem targz_pattern_drops_tar_witness :
    strEndsWith
        (generate_generic_executable_name ⟨'t' :: "ool-1.2".data ++ ".tar.gz".data⟩ "x")
        ".gz" = true
      ∧ strEndsWith
        (generate_generic_executable_name ⟨'t' :: "ool-1.2".data ++ ".tar.gz".data⟩ "x")
        ".tar.gz" = false :=
  targz_pattern_drops_tar 't' "ool-1.2".data "x" (by decide)

end SunshineAIO
